import Mathlib

/-!
Shallow embedding of the CasADi SymbolicQr linear solver, the HorzRepmat /
HorzRepsum / Rank1 expression nodes and the WORHP interface main loop,
together with proofs of the specification claims about them.

Numeric buffers are modelled over `ℚ` (exact field arithmetic standing in
for the C++ `double` values), C++ `std::vector` buffers as `List`s or as
total functions, and the per-memory scratch sizes as natural numbers.
-/

open Matrix

namespace Casadi

/-! ### Scratch-buffer allocation (`SymbolicQrMemory::alloc`, `SymbolicQr::reset`) -/

/-- The four scratch-size requirements a compiled `Function` advertises
(`sz_arg`, `sz_res`, `sz_iw`, `sz_w` in the source). -/
structure FnReq where
  szArg : Nat
  szRes : Nat
  szIw : Nat
  szW : Nat
deriving DecidableEq, Repr

/-- The sizes of the four scratch arrays held by a `SymbolicQrMemory`
(`arg`, `res`, `iw`, `w` in the source). -/
structure MemSizes where
  argSz : Nat
  resSz : Nat
  iwSz : Nat
  wSz : Nat
deriving DecidableEq, Repr

namespace SymbolicQrMemory

/-- `SymbolicQrMemory::alloc(f)`: each array is resized to the maximum of its
current size and the requirement of `f`. -/
def alloc (m : MemSizes) (f : FnReq) : MemSizes :=
  { argSz := max m.argSz f.szArg
    resSz := max m.resSz f.szRes
    iwSz := max m.iwSz f.szIw
    wSz := max m.wSz f.szW }

end SymbolicQrMemory

namespace SymbolicQr

/-- The allocation sequence performed by `SymbolicQr::reset`: allocate for the
generated `factorize`, `solve` and `solveT` Functions in turn, then grow the
floating scratch by one row count (`m->w.resize(m->w.size() + s.size1())`). -/
def resetAlloc (m : MemSizes) (fact solv solvT : FnReq) (nrow : Nat) : MemSizes :=
  let m1 := SymbolicQrMemory.alloc m fact
  let m2 := SymbolicQrMemory.alloc m1 solv
  let m3 := SymbolicQrMemory.alloc m2 solvT
  { m3 with wSz := m3.wSz + nrow }

/-- The inverse-permutation computation in `SymbolicQr::reset`:
`std::vector<int> inv_colperm(colperm.size());` (zero-initialized), then
`for (k = 0; k < size; ++k) inv_colperm[colperm[k]] = k;`.  The same loop is
run for `rowperm`/`inv_rowperm`. -/
def invPerm (p : List Nat) : List Nat :=
  (List.range p.length).foldl (fun a k => a.set (p.getD k 0) k)
    (List.replicate p.length 0)

/-- The numeric QR factor buffers stored in a `SymbolicQrMemory`
(`m->q` and `m->r` in the source). -/
structure QrFactors where
  q : List ℚ
  r : List ℚ
deriving DecidableEq, Repr

/-- The argument-pointer array prepared by `SymbolicQr::factorize`: all
`n_in` slots are first nulled, then `arg[0]` is set to `A`'s numeric
nonzeros, so the matrix values are the sole input of the QR Function. -/
def factorizeArg (A : List ℚ) : Nat → Option (List ℚ) :=
  fun i => if i = 0 then some A else none

/-- `SymbolicQr::factorize`: invoke the generated QR Function on the prepared
argument array and store its two outputs in the `q` and `r` buffers.
Modelled from the spec: the generated QR Function body is not among the
sources; it is modelled as a kernel that either returns the `(Q, R)` nonzero
buffers or fails with a `SingularMatrixError`-style message, in which case
the failure propagates to the caller before the stored buffers are written. -/
def factorize (kern : (Nat → Option (List ℚ)) → Except String (List ℚ × List ℚ))
    (m : QrFactors) (A : List ℚ) : QrFactors × Option String :=
  match kern (factorizeArg A) with
  | Except.ok qr => ({ q := qr.1, r := qr.2 }, none)
  | Except.error e => (m, some e)

/-- One step of the option loop in `SymbolicQr::init`: the `codegen` key is
read as a boolean, the removed `compiler` key aborts with an error, and any
other key is left to the base-class initializer. -/
def initStep (codegen : Bool) (op : String × Bool) : Except String Bool :=
  if op.1 = "codegen" then Except.ok op.2
  else if op.1 = "compiler" then Except.error "Option \"compiler\" has been removed"
  else Except.ok codegen

/-- The option loop of `SymbolicQr::init`: each entry is processed by
`initStep` and a `casadi_error` aborts the whole initialization. -/
def initLoop : List (String × Bool) → Bool → Except String Bool
  | [], codegen => Except.ok codegen
  | op :: rest, codegen =>
    match initStep codegen op with
    | Except.ok c2 => initLoop rest c2
    | Except.error e => Except.error e

/-- `SymbolicQr::init` over the options dictionary, starting from the
default `codegen = false`. -/
def init (opts : List (String × Bool)) : Except String Bool :=
  initLoop opts false

/-- Reading the contiguous segment of the caller buffer starting at `off`:
`copy_n(x, nrow, w)` views entries `off, off+1, ...` of the flat buffer. -/
def readSeg (buf : Nat → ℚ) (off : Nat) : Nat → ℚ :=
  fun j => buf (off + j)

/-- Overwriting the segment `[off, off + len)` of the flat caller buffer
with a solution vector `v` (the solve Function writing through `res[0]`),
all other entries untouched. -/
def writeSeg (buf : Nat → ℚ) (off len : Nat) (v : Nat → ℚ) : Nat → ℚ :=
  fun j => if off ≤ j ∧ j < off + len then v (j - off) else buf j

/-- The right-hand-side loop of `SymbolicQr::solve`: for `i = 0 .. nrhs-1`,
copy the `i`-th segment of `nrow` entries into the scratch temporary, apply
the solve Function `solv` (a closure over the stored `Q` and `R` buffers,
which are placed in `arg[0]` and `arg[1]`, the temporary being `arg[2]`),
and overwrite the same segment with the solution.  Applying `solv` to the
pre-write buffer is exactly the temporary-copy semantics of the source. -/
def solveLoop (solv : (Nat → ℚ) → Nat → ℚ) (nrow nrhs : Nat) (x : Nat → ℚ) : Nat → ℚ :=
  (List.range nrhs).foldl
    (fun buf i => writeSeg buf (i * nrow) nrow (solv (readSeg buf (i * nrow)))) x

/-- `SymbolicQr::solve`: select the transposed solve Function when `tr` is
set (`const Function& solv = tr ? m->solveT : m->solve;`) and run the
right-hand-side loop. -/
def solveCall (solveF solveT : (Nat → ℚ) → Nat → ℚ) (tr : Bool)
    (nrow nrhs : Nat) (x : Nat → ℚ) : Nat → ℚ :=
  solveLoop (if tr then solveT else solveF) nrow nrhs x

/-- Modelled from the spec: the `SX::solve(R, y)` kernel used by the graphs
built in `SymbolicQr::reset` — producing the solution of the linear system
`R·z = y` — is not among the sources; for an invertible `R` it is modelled
by Cramer's rule, `z = det(R)⁻¹ · adj(R) · y`. -/
def linSolve {n : Nat} (R : Matrix (Fin n) (Fin n) ℚ) (y : Fin n → ℚ) : Fin n → ℚ :=
  (R.det)⁻¹ • (R.adjugate *ᵥ y)

/-- `Aperm = A(btf.rowperm, btf.colperm)`: the permuted coefficient matrix
built in `SymbolicQr::reset`, `Aperm[i][j] = A[rowperm[i]][colperm[j]]`.
The BTF permutations are bijections on `[0, n)` and are therefore carried as
`Equiv.Perm` values. -/
def permuteMat {n : Nat} (A : Matrix (Fin n) (Fin n) ℚ) (rp cp : Equiv.Perm (Fin n)) :
    Matrix (Fin n) (Fin n) ℚ :=
  Matrix.of fun i j => A (rp i) (cp j)

/-- `b(perm, Slice())`: indexing a column vector by a permutation vector,
`result[k] = b[perm[k]]`. -/
def permVec {n : Nat} (p : Fin n → Fin n) (b : Fin n → ℚ) : Fin n → ℚ :=
  fun k => b (p k)

/-- The body of the generated `QR_solv` Function built in
`SymbolicQr::reset`: permute the right-hand side by `rowperm`
(`bperm = b(rowperm)`), solve the factorized system
(`xperm = solve(R, Qᵀ·bperm)`), and permute the solution back by the
inverse column permutation (`x = xperm(inv_colperm)`, with
`inv_colperm = colperm⁻¹` by `symbolicQr_invPerm_comp_id`). -/
def solveGraph {n : Nat} (Q R : Matrix (Fin n) (Fin n) ℚ)
    (rp cp : Equiv.Perm (Fin n)) (b : Fin n → ℚ) : Fin n → ℚ :=
  let bperm := permVec rp b
  let xperm := linSolve R (Q.transpose *ᵥ bperm)
  permVec cp.symm xperm

/-- The body of the generated `QR_solv_T` Function built in
`SymbolicQr::reset`: permute the right-hand side by `colperm`
(`bperm = b(colperm)`), solve the transposed factorized system
(`xperm = Q·solve(Rᵀ, bperm)`), and permute the solution back by the
inverse row permutation (`x = xperm(inv_rowperm)`). -/
def solveTGraph {n : Nat} (Q R : Matrix (Fin n) (Fin n) ℚ)
    (rp cp : Equiv.Perm (Fin n)) (b : Fin n → ℚ) : Fin n → ℚ :=
  let bperm := permVec cp b
  let xperm := Q *ᵥ linSolve R.transpose bperm
  permVec rp.symm xperm

end SymbolicQr

/-! ### WORHP interface: option sorting in `WorhpInterface::init` -/

namespace WorhpInterface

/-- The WORHP parameter types distinguished by the `switch` in
`WorhpInterface::init` (`WORHP_BOOL_T`, `WORHP_DOUBLE_T`, `WORHP_INT_T`, and
the `default` branch for any other type). -/
inductive WorhpParamType where
  | wbool
  | wdouble
  | wint
  | wother
deriving DecidableEq, Repr

/-- The three per-type option lists `bool_opts_`, `double_opts_`,
`int_opts_` populated by `WorhpInterface::init`. -/
structure SortedOpts where
  boolOpts : List (String × ℚ)
  doubleOpts : List (String × ℚ)
  intOpts : List (String × ℚ)
deriving DecidableEq, Repr

/-- One step of the option-sorting loop of `WorhpInterface::init`: a linear
search over the WORHP parameter table for the option's name (breaking at the
first match), an error if no parameter matches, then a dispatch on the
matched parameter's type, with an error in the `default` branch.  The
parameter table (`WorhpGetParamCount`/`Name`/`Type`) is external to the
sources and passed in as a list of name/type pairs. -/
def sortStep (params : List (String × WorhpParamType)) (acc : SortedOpts)
    (op : String × ℚ) : Except String SortedOpts :=
  match params.find? (fun pr => pr.1 = op.1) with
  | none => Except.error ("No such Worhp option: " ++ op.1)
  | some pr =>
    match pr.2 with
    | WorhpParamType.wbool => Except.ok { acc with boolOpts := acc.boolOpts ++ [op] }
    | WorhpParamType.wdouble => Except.ok { acc with doubleOpts := acc.doubleOpts ++ [op] }
    | WorhpParamType.wint => Except.ok { acc with intOpts := acc.intOpts ++ [op] }
    | WorhpParamType.wother =>
      Except.error ("Cannot handle WORHP option \"" ++ op.1 ++ "\": Unknown type")

/-- The option-sorting loop of `WorhpInterface::init`: each entry of the
`worhp` sub-dictionary is processed by `sortStep` and a `casadi_error`
aborts the whole initialization. -/
def sortLoop (params : List (String × WorhpParamType)) :
    List (String × ℚ) → SortedOpts → Except String SortedOpts
  | [], acc => Except.ok acc
  | op :: rest, acc =>
    match sortStep params acc op with
    | Except.ok acc2 => sortLoop params rest acc2
    | Except.error e => Except.error e

/-- The option sorting of `WorhpInterface::init` over the `worhp`
sub-dictionary, starting from empty per-type lists. -/
def sortOpts (params : List (String × WorhpParamType))
    (opts : List (String × ℚ)) : Except String SortedOpts :=
  sortLoop params opts ⟨[], [], []⟩

/-- The pieces of the reverse-communication state of `WorhpInterface::solve`
touched by the iteration-callback logic: the WORHP status, the
`firstIteration` flag, and a count of callback invocations. -/
structure LoopState where
  status : Int
  firstIteration : Bool
  cbCalls : Nat
deriving DecidableEq, Repr

/-- The external events of one pass of the reverse-communication loop:
whether WORHP requests the `callWorhp` action (and the status the external
`Worhp()` call then leaves behind), whether it requests the `iterOutput`
action, and the value the user callback would return if it were
evaluated. -/
structure LoopInput where
  callWorhp : Bool
  worhpStatus : Int
  iterOutput : Bool
  cbRet : Int
deriving DecidableEq, Repr

/-- One pass of the reverse-communication loop of `WorhpInterface::solve`,
transcribed for the parts that touch `status`, `firstIteration` and the
callback: the `callWorhp` action runs the external solver (updating the
status); the `iterOutput` action runs the guarded block — under
`if (!firstIteration)`, set `firstIteration = true` and, when a callback
Function is installed (`hasCb`), evaluate it and on a nonzero return set the
status to `TerminatedByUser` (`tbu`).  The remaining actions (`evalF`,
`evalG`, `evalDF`, `evalDG`, `evalHM`, `fidif`) evaluate NLP functions and
touch none of these fields. -/
def loopStep (tbu : Int) (hasCb : Bool) (s : LoopState) (inp : LoopInput) : LoopState :=
  let s1 := if inp.callWorhp then { s with status := inp.worhpStatus } else s
  if inp.iterOutput then
    (if ¬ s1.firstIteration then
      let s2 := { s1 with firstIteration := true }
      if hasCb then
        let s3 := { s2 with cbCalls := s2.cbCalls + 1 }
        if inp.cbRet ≠ 0 then { s3 with status := tbu } else s3
      else s2
    else s1)
  else s1

/-- The reverse-communication loop run over a finite trace of passes,
starting as `WorhpInterface::solve` does with `bool firstIteration = true;`
and no callback evaluations yet. -/
def runLoop (tbu : Int) (hasCb : Bool) (s0 : Int) (trace : List LoopInput) : LoopState :=
  trace.foldl (loopStep tbu hasCb) ⟨s0, true, 0⟩

end WorhpInterface

/-! ### Rank1 node -/

namespace Rank1

/-- `Rank1::n_inplace()`: number of inputs allowed to alias the output. -/
def n_inplace : Nat := 1

/-- Modelled from the spec: the Rank1 node computes `A + α·x·yᵗ`
(the `evalGen` body is not among the sources; only its declaration is). -/
def evalGen {mdim ndim : Nat} (A : Matrix (Fin mdim) (Fin ndim) ℚ) (alpha : ℚ)
    (x : Fin mdim → ℚ) (y : Fin ndim → ℚ) : Matrix (Fin mdim) (Fin ndim) ℚ :=
  A + alpha • Matrix.vecMulVec x y

end Rank1

/-! ### HorzRepmat / HorzRepsum nodes -/

namespace HorzRepmat

/-- Modelled from the spec: `HorzRepmat` evaluation copies `X`'s nonzero
buffer `n` times contiguously (the `evalGen` body is not among the sources;
only its declaration is). -/
def evalGen (x : List ℚ) (n : Nat) : List ℚ :=
  (List.replicate n x).flatten

end HorzRepmat

namespace HorzRepsum

/-- Modelled from the spec: `HorzRepsum` reduces a buffer of `n` stacked
blocks of `nnz` entries each by elementwise accumulation with the default
sum reduction (the `evalGen` body is not among the sources; only its
declaration is). -/
def evalGen (n nnz : Nat) (x : List ℚ) : List ℚ :=
  (List.range nnz).map (fun j => ((List.range n).map (fun i => x.getD (i * nnz + j) 0)).sum)

end HorzRepsum

/-- A QR kernel that succeeds with fixed factor buffers (used to instantiate
the factorize theorem at a concrete input). -/
def demoKernGood : (Nat → Option (List ℚ)) → Except String (List ℚ × List ℚ) :=
  fun _ => Except.ok ([1], [2])

/-- A QR kernel that fails numerically (used to instantiate the factorize
theorem at a concrete input). -/
def demoKernSingular : (Nat → Option (List ℚ)) → Except String (List ℚ × List ℚ) :=
  fun _ => Except.error "singular matrix"

/-- A concrete one-row solve Function (adds one to the single entry), used
to instantiate the solve-loop theorem. -/
def demoSolve : (Nat → ℚ) → Nat → ℚ :=
  fun u _ => u 0 + 1

/-- A concrete flat right-hand-side buffer, used to instantiate the
solve-loop theorem. -/
def demoRhs : Nat → ℚ :=
  fun k => (k : ℚ)

/-- Concrete 1×1 coefficient matrix `A = [2]`, used to instantiate the
solve-correctness theorem. -/
def demoA : Matrix (Fin 1) (Fin 1) ℚ :=
  Matrix.of fun _ _ => 2

/-- Concrete 1×1 orthogonal factor `Q = [1]`. -/
def demoQ : Matrix (Fin 1) (Fin 1) ℚ :=
  Matrix.of fun _ _ => 1

/-- Concrete 1×1 triangular factor `R = [2]`. -/
def demoR : Matrix (Fin 1) (Fin 1) ℚ :=
  Matrix.of fun _ _ => 2

/-- Concrete right-hand side `b = [4]`. -/
def demoB : Fin 1 → ℚ :=
  fun _ => 4

end Casadi

/-! ### Theorems -/

namespace Casadi

/-- C10: `SymbolicQrMemory::alloc` is monotone and never shrinks a buffer:
after `alloc f` each array has size `max (previous size) (requirement of f)`,
and after any sequence of `alloc` calls every array's size bounds the
requirement of every Function allocated so far. -/
theorem symbolicQrMemory_alloc_monotone :
    (∀ (m : MemSizes) (f : FnReq),
      (SymbolicQrMemory.alloc m f).argSz = max m.argSz f.szArg ∧
      (SymbolicQrMemory.alloc m f).resSz = max m.resSz f.szRes ∧
      (SymbolicQrMemory.alloc m f).iwSz = max m.iwSz f.szIw ∧
      (SymbolicQrMemory.alloc m f).wSz = max m.wSz f.szW) ∧
    (∀ (fs : List FnReq) (m0 : MemSizes) (f : FnReq), f ∈ fs →
      f.szArg ≤ (fs.foldl SymbolicQrMemory.alloc m0).argSz ∧
      f.szRes ≤ (fs.foldl SymbolicQrMemory.alloc m0).resSz ∧
      f.szIw ≤ (fs.foldl SymbolicQrMemory.alloc m0).iwSz ∧
      f.szW ≤ (fs.foldl SymbolicQrMemory.alloc m0).wSz) := by
  constructor
  · intro m f; exact ⟨rfl, rfl, rfl, rfl⟩
  · intro fs
    induction fs with
    | nil => intro m0 f hf; cases hf
    | cons g gs ih =>
      intro m0 f hf
      rcases List.mem_cons.mp hf with hfg | hfs
      · subst hfg
        have hmono : ∀ (ms : List FnReq) (m1 : MemSizes),
            m1.argSz ≤ (ms.foldl SymbolicQrMemory.alloc m1).argSz ∧
            m1.resSz ≤ (ms.foldl SymbolicQrMemory.alloc m1).resSz ∧
            m1.iwSz ≤ (ms.foldl SymbolicQrMemory.alloc m1).iwSz ∧
            m1.wSz ≤ (ms.foldl SymbolicQrMemory.alloc m1).wSz := by
          intro ms
          induction ms with
          | nil => intro m1; exact ⟨le_refl _, le_refl _, le_refl _, le_refl _⟩
          | cons h hs ih2 =>
            intro m1
            have := ih2 (SymbolicQrMemory.alloc m1 h)
            refine ⟨le_trans ?_ this.1, le_trans ?_ this.2.1,
              le_trans ?_ this.2.2.1, le_trans ?_ this.2.2.2⟩ <;>
              simp [SymbolicQrMemory.alloc]
        have := hmono gs (SymbolicQrMemory.alloc m0 f)
        refine ⟨le_trans ?_ this.1, le_trans ?_ this.2.1,
          le_trans ?_ this.2.2.1, le_trans ?_ this.2.2.2⟩ <;>
          simp [SymbolicQrMemory.alloc]
      · exact ih (SymbolicQrMemory.alloc m0 g) f hfs

/-- Witness for C10 at a concrete sequence of allocations. -/
theorem symbolicQrMemory_alloc_monotone_witness :
    (⟨3, 1, 0, 5⟩ : FnReq) ∈ [(⟨3, 1, 0, 5⟩ : FnReq), ⟨2, 4, 7, 1⟩] ∧
      (3 ≤ ([(⟨3, 1, 0, 5⟩ : FnReq), ⟨2, 4, 7, 1⟩].foldl SymbolicQrMemory.alloc
        ⟨0, 0, 0, 0⟩).argSz ∧
       1 ≤ ([(⟨3, 1, 0, 5⟩ : FnReq), ⟨2, 4, 7, 1⟩].foldl SymbolicQrMemory.alloc
        ⟨0, 0, 0, 0⟩).resSz ∧
       0 ≤ ([(⟨3, 1, 0, 5⟩ : FnReq), ⟨2, 4, 7, 1⟩].foldl SymbolicQrMemory.alloc
        ⟨0, 0, 0, 0⟩).iwSz ∧
       5 ≤ ([(⟨3, 1, 0, 5⟩ : FnReq), ⟨2, 4, 7, 1⟩].foldl SymbolicQrMemory.alloc
        ⟨0, 0, 0, 0⟩).wSz) :=
  ⟨by decide,
   symbolicQrMemory_alloc_monotone.2 [⟨3, 1, 0, 5⟩, ⟨2, 4, 7, 1⟩] ⟨0, 0, 0, 0⟩
     ⟨3, 1, 0, 5⟩ (by decide)⟩

/-- C4: after `SymbolicQr::reset`, each scratch array is at least as large as
the elementwise maximum of the three generated Functions' requirements, and
the floating scratch additionally holds a row-count-sized temporary on top of
each Function's floating requirement, so every future `factorize` call (needs
`fact.szW`) and every `solve` iteration (needs `nrow` for the temporary plus
the selected solve Function's `szW`) fits in the allocation. -/
theorem symbolicQr_resetAlloc_bounds (m : MemSizes) (fact solv solvT : FnReq) (nrow : Nat) :
    fact.szArg ≤ (SymbolicQr.resetAlloc m fact solv solvT nrow).argSz ∧
    solv.szArg ≤ (SymbolicQr.resetAlloc m fact solv solvT nrow).argSz ∧
    solvT.szArg ≤ (SymbolicQr.resetAlloc m fact solv solvT nrow).argSz ∧
    fact.szRes ≤ (SymbolicQr.resetAlloc m fact solv solvT nrow).resSz ∧
    solv.szRes ≤ (SymbolicQr.resetAlloc m fact solv solvT nrow).resSz ∧
    solvT.szRes ≤ (SymbolicQr.resetAlloc m fact solv solvT nrow).resSz ∧
    fact.szIw ≤ (SymbolicQr.resetAlloc m fact solv solvT nrow).iwSz ∧
    solv.szIw ≤ (SymbolicQr.resetAlloc m fact solv solvT nrow).iwSz ∧
    solvT.szIw ≤ (SymbolicQr.resetAlloc m fact solv solvT nrow).iwSz ∧
    fact.szW ≤ (SymbolicQr.resetAlloc m fact solv solvT nrow).wSz ∧
    nrow + solv.szW ≤ (SymbolicQr.resetAlloc m fact solv solvT nrow).wSz ∧
    nrow + solvT.szW ≤ (SymbolicQr.resetAlloc m fact solv solvT nrow).wSz := by
  simp only [SymbolicQr.resetAlloc, SymbolicQrMemory.alloc]
  omega

/-- C7: the Rank1 node (`A + α·x·yᵗ`) with `α = 0` returns `A` unchanged,
with `A` all-zero returns exactly the outer product `α·x·yᵗ`, and exactly one
input operand is eligible to alias the output (`Rank1::n_inplace() == 1`). -/
theorem rank1_zero_cases :
    (∀ (mdim ndim : Nat) (A : Matrix (Fin mdim) (Fin ndim) ℚ)
      (x : Fin mdim → ℚ) (y : Fin ndim → ℚ), Rank1.evalGen A 0 x y = A) ∧
    (∀ (mdim ndim : Nat) (alpha : ℚ) (x : Fin mdim → ℚ) (y : Fin ndim → ℚ),
      Rank1.evalGen 0 alpha x y = alpha • Matrix.vecMulVec x y) ∧
    Rank1.n_inplace = 1 := by
  refine ⟨?_, ?_, rfl⟩
  · intro mdim ndim A x y
    simp [Rank1.evalGen]
  · intro mdim ndim alpha x y
    simp [Rank1.evalGen]

/-- Reading position `i * x.length + j` of `n` contiguous copies of `x`
recovers `x`'s entry `j`. -/
theorem getD_flatten_replicate (x : List ℚ) (n i j : Nat) (hi : i < n) (hj : j < x.length) :
    ((List.replicate n x).flatten).getD (i * x.length + j) 0 = x.getD j 0 := by
  induction n generalizing i with
  | zero => omega
  | succ n ih =>
    rw [List.replicate_succ, List.flatten_cons]
    cases i with
    | zero =>
      simp only [Nat.zero_mul, Nat.zero_add]
      rw [List.getD_eq_getElem?_getD, List.getElem?_append_left hj,
        ← List.getD_eq_getElem?_getD]
    | succ i =>
      have hge : x.length ≤ (i + 1) * x.length + j := by
        have : x.length ≤ (i + 1) * x.length := Nat.le_mul_of_pos_left _ (Nat.succ_pos i)
        omega
      rw [List.getD_eq_getElem?_getD, List.getElem?_append_right hge,
        ← List.getD_eq_getElem?_getD]
      have harith : (i + 1) * x.length + j - x.length = i * x.length + j := by
        have : (i + 1) * x.length = i * x.length + x.length := by ring
        omega
      rw [harith]
      exact ih i (by omega)

/-- C6: tiled replication (`HorzRepmat` with parameter `n`) followed by tiled
reduction-sum (`HorzRepsum` with the same `n` and the default sum reduction)
reproduces `n · X` exactly, elementwise. -/
theorem horzRepmat_repsum_roundtrip (x : List ℚ) (n : Nat) (hn : 1 ≤ n) :
    HorzRepsum.evalGen n x.length (HorzRepmat.evalGen x n) =
      x.map (fun v => (n : ℚ) * v) := by
  apply List.ext_getElem
  · simp [HorzRepsum.evalGen]
  · intro j hj hj'
    have hjx : j < x.length := by simpa using hj'
    simp only [HorzRepsum.evalGen, HorzRepmat.evalGen, List.getElem_map,
      List.getElem_range]
    have hcopy : ∀ i ∈ List.range n,
        ((List.replicate n x).flatten).getD (i * x.length + j) 0 = x.getD j 0 := by
      intro i hi
      exact getD_flatten_replicate x n i j (List.mem_range.mp hi) hjx
    rw [List.map_congr_left hcopy, List.map_const', List.sum_replicate,
      List.getD_eq_getElem _ _ hjx]
    simp [nsmul_eq_mul]

/-- The write loop of `SymbolicQr.invPerm` preserves the array length. -/
theorem invPerm_loop_length (p ks a : List Nat) :
    (ks.foldl (fun b k => b.set (p.getD k 0) k) a).length = a.length := by
  induction ks generalizing a with
  | nil => rfl
  | cons k ks ih => rw [List.foldl_cons, ih, List.length_set]

/-- A position never written by the loop keeps its previous value. -/
theorem invPerm_loop_untouched (p ks : List Nat) (a : List Nat) (j : Nat)
    (h : ∀ k ∈ ks, p.getD k 0 ≠ j) :
    (ks.foldl (fun b k => b.set (p.getD k 0) k) a).getD j 0 = a.getD j 0 := by
  induction ks generalizing a with
  | nil => rfl
  | cons k ks ih =>
    rw [List.foldl_cons, ih _ (fun k2 hk2 => h k2 (List.mem_cons_of_mem _ hk2)),
      List.getD_eq_getElem?_getD, List.getElem?_set_ne (h k (List.mem_cons_self k ks)),
      ← List.getD_eq_getElem?_getD]

/-- If the write indices are injective over the distinct iteration list `ks`,
the loop leaves value `k` at position `p[k]` for every `k ∈ ks`. -/
theorem invPerm_loop_hit (p ks : List Nat) (a : List Nat) (k : Nat)
    (hk : k ∈ ks)
    (hinj : ∀ k1 ∈ ks, ∀ k2 ∈ ks, p.getD k1 0 = p.getD k2 0 → k1 = k2)
    (hnd : ks.Nodup)
    (hlt : p.getD k 0 < a.length) :
    (ks.foldl (fun b k => b.set (p.getD k 0) k) a).getD (p.getD k 0) 0 = k := by
  induction ks generalizing a with
  | nil => cases hk
  | cons k0 ks ih =>
    rw [List.foldl_cons]
    rcases List.mem_cons.mp hk with heq | hkmem
    · subst heq
      have huntouched : ∀ k2 ∈ ks, p.getD k2 0 ≠ p.getD k 0 := by
        intro k2 hk2 hpe
        have hkk : k2 = k := hinj k2 (List.mem_cons_of_mem _ hk2) k
          (List.mem_cons_self k ks) hpe
        exact (List.nodup_cons.mp hnd).1 (hkk ▸ hk2)
      rw [invPerm_loop_untouched p ks _ _ huntouched, List.getD_eq_getElem?_getD,
        List.getElem?_set_eq_of_lt k hlt]
      rfl
    · have hinj2 : ∀ k1 ∈ ks, ∀ k2 ∈ ks, p.getD k1 0 = p.getD k2 0 → k1 = k2 :=
        fun k1 h1 k2 h2 => hinj k1 (List.mem_cons_of_mem _ h1) k2 (List.mem_cons_of_mem _ h2)
      exact ih (a.set (p.getD k0 0) k0) hkmem hinj2 (List.nodup_cons.mp hnd).2
        (by rw [List.length_set]; exact hlt)

/-- C2: when the permutation vector `p` is a bijection on `[0, n)` (all
entries below `n = p.length` and no duplicates), the inverse permutation
computed by the loop in `SymbolicQr::reset` satisfies `inv[p[k]] = k` for
every `k < n`: composing it with `p` is the identity on `[0, n)`.  The same
statement applies to `colperm` and to `rowperm`. -/
theorem symbolicQr_invPerm_comp_id (p : List Nat)
    (hbound : ∀ x ∈ p, x < p.length) (hnd : p.Nodup) :
    ∀ k < p.length, (SymbolicQr.invPerm p).getD (p.getD k 0) 0 = k := by
  intro k hk
  have hmem : p.getD k 0 ∈ p := by
    rw [List.getD_eq_getElem _ _ hk]
    exact List.getElem_mem hk
  apply invPerm_loop_hit
  · exact List.mem_range.mpr hk
  · intro k1 hk1 k2 hk2 heq
    have h1 : k1 < p.length := List.mem_range.mp hk1
    have h2 : k2 < p.length := List.mem_range.mp hk2
    rw [List.getD_eq_getElem _ _ h1, List.getD_eq_getElem _ _ h2] at heq
    exact (List.Nodup.getElem_inj_iff hnd).mp heq
  · exact List.nodup_range _
  · rw [List.length_replicate]
    exact hbound _ hmem

/-- Witness for C2 at `p = [2, 0, 1]`, `k = 1`. -/
theorem symbolicQr_invPerm_comp_id_witness :
    (∀ x ∈ [2, 0, 1], x < [2, 0, 1].length) ∧ ([2, 0, 1] : List Nat).Nodup ∧
      1 < [2, 0, 1].length ∧
      (SymbolicQr.invPerm [2, 0, 1]).getD (([2, 0, 1] : List Nat).getD 1 0) 0 = 1 :=
  ⟨by decide, by decide, by decide,
   symbolicQr_invPerm_comp_id [2, 0, 1] (by decide) (by decide) 1 (by decide)⟩

/-- C5: `SymbolicQr::factorize` invokes the QR Function with `A`'s numeric
nonzeros as the sole input (`factorizeArg`); on success the resulting `Q` and
`R` nonzero buffers are stored in the Memory, and on a numeric failure the
error is reported to the caller and the previously stored factors are
returned unchanged. -/
theorem symbolicQr_factorize_spec :
    (∀ (kern : (Nat → Option (List ℚ)) → Except String (List ℚ × List ℚ))
      (m : SymbolicQr.QrFactors) (A q r : List ℚ),
      kern (SymbolicQr.factorizeArg A) = Except.ok (q, r) →
      SymbolicQr.factorize kern m A = ({ q := q, r := r }, none)) ∧
    (∀ (kern : (Nat → Option (List ℚ)) → Except String (List ℚ × List ℚ))
      (m : SymbolicQr.QrFactors) (A : List ℚ) (e : String),
      kern (SymbolicQr.factorizeArg A) = Except.error e →
      SymbolicQr.factorize kern m A = (m, some e)) := by
  constructor
  · intro kern m A q r h
    simp [SymbolicQr.factorize, h]
  · intro kern m A e h
    simp [SymbolicQr.factorize, h]

/-- Witness for C5: a succeeding and a failing kernel at concrete buffers. -/
theorem symbolicQr_factorize_spec_witness :
    demoKernGood (SymbolicQr.factorizeArg [5]) = Except.ok ([1], [2]) ∧
    SymbolicQr.factorize demoKernGood ⟨[], []⟩ [5] = (⟨[1], [2]⟩, none) ∧
    demoKernSingular (SymbolicQr.factorizeArg [5]) = Except.error "singular matrix" ∧
    SymbolicQr.factorize demoKernSingular ⟨[1], [2]⟩ [5] = (⟨[1], [2]⟩, some "singular matrix") :=
  ⟨rfl, symbolicQr_factorize_spec.1 demoKernGood ⟨[], []⟩ [5] [1] [2] rfl,
   rfl, symbolicQr_factorize_spec.2 demoKernSingular ⟨[1], [2]⟩ [5] "singular matrix" rfl⟩

/-- The `SymbolicQr::init` option loop succeeds exactly when the removed
`compiler` key is absent, whatever the current `codegen` value. -/
theorem symbolicQr_initLoop_ok_iff (opts : List (String × Bool)) :
    ∀ c : Bool, (∃ v, SymbolicQr.initLoop opts c = Except.ok v) ↔
      "compiler" ∉ opts.map Prod.fst := by
  induction opts with
  | nil =>
    intro c
    simp [SymbolicQr.initLoop]
  | cons op rest ih =>
    intro c
    obtain ⟨k, v⟩ := op
    by_cases h1 : k = "codegen"
    · subst h1
      have hstep : SymbolicQr.initLoop (("codegen", v) :: rest) c
          = SymbolicQr.initLoop rest v := rfl
      rw [hstep, ih v, List.map_cons]
      have hne : ("compiler" : String) ≠ "codegen" := by decide
      simp [List.mem_cons, hne]
    · by_cases h2 : k = "compiler"
      · subst h2
        have hstep : SymbolicQr.initLoop (("compiler", v) :: rest) c
            = Except.error "Option \"compiler\" has been removed" := rfl
        rw [hstep, List.map_cons]
        simp [List.mem_cons]
      · have hstep : SymbolicQr.initLoop ((k, v) :: rest) c
            = SymbolicQr.initLoop rest c := by
          simp [SymbolicQr.initLoop, SymbolicQr.initStep, h1, h2]
        rw [hstep, ih c, List.map_cons]
        have hne : ¬("compiler" = k) := fun h => h2 h.symm
        simp [List.mem_cons, hne]

/-- The `WorhpInterface::init` option-sorting loop succeeds exactly when
every option name has a match in the WORHP parameter table whose first match
has a handled type, whatever the accumulated lists. -/
theorem worhp_sortLoop_ok_iff (params : List (String × WorhpInterface.WorhpParamType))
    (opts : List (String × ℚ)) :
    ∀ acc : WorhpInterface.SortedOpts,
      (∃ v, WorhpInterface.sortLoop params opts acc = Except.ok v) ↔
      ∀ op ∈ opts, ∃ pr, params.find? (fun q2 => q2.1 = op.1) = some pr ∧
        pr.2 ≠ WorhpInterface.WorhpParamType.wother := by
  induction opts with
  | nil =>
    intro acc
    simp [WorhpInterface.sortLoop]
  | cons op rest ih =>
    intro acc
    rcases hfind : params.find? (fun q2 => q2.1 = op.1) with _ | pr
    · have hstep : WorhpInterface.sortLoop params (op :: rest) acc
          = Except.error ("No such Worhp option: " ++ op.1) := by
        simp [WorhpInterface.sortLoop, WorhpInterface.sortStep, hfind]
      rw [hstep, List.forall_mem_cons]
      constructor
      · rintro ⟨v, hv⟩
        cases hv
      · rintro ⟨⟨pr2, hpr2, _⟩, _⟩
        rw [hfind] at hpr2
        cases hpr2
    · obtain ⟨pname, pty⟩ := pr
      cases pty
      case wbool =>
        have hstep : WorhpInterface.sortLoop params (op :: rest) acc
            = WorhpInterface.sortLoop params rest
                { acc with boolOpts := acc.boolOpts ++ [op] } := by
          simp [WorhpInterface.sortLoop, WorhpInterface.sortStep, hfind]
        rw [hstep, ih _, List.forall_mem_cons]
        have hP : ∃ pr2, params.find? (fun q2 => q2.1 = op.1) = some pr2 ∧
            pr2.2 ≠ WorhpInterface.WorhpParamType.wother :=
          ⟨(pname, WorhpInterface.WorhpParamType.wbool), hfind, fun h => nomatch h⟩
        exact (and_iff_right hP).symm
      case wdouble =>
        have hstep : WorhpInterface.sortLoop params (op :: rest) acc
            = WorhpInterface.sortLoop params rest
                { acc with doubleOpts := acc.doubleOpts ++ [op] } := by
          simp [WorhpInterface.sortLoop, WorhpInterface.sortStep, hfind]
        rw [hstep, ih _, List.forall_mem_cons]
        have hP : ∃ pr2, params.find? (fun q2 => q2.1 = op.1) = some pr2 ∧
            pr2.2 ≠ WorhpInterface.WorhpParamType.wother :=
          ⟨(pname, WorhpInterface.WorhpParamType.wdouble), hfind, fun h => nomatch h⟩
        exact (and_iff_right hP).symm
      case wint =>
        have hstep : WorhpInterface.sortLoop params (op :: rest) acc
            = WorhpInterface.sortLoop params rest
                { acc with intOpts := acc.intOpts ++ [op] } := by
          simp [WorhpInterface.sortLoop, WorhpInterface.sortStep, hfind]
        rw [hstep, ih _, List.forall_mem_cons]
        have hP : ∃ pr2, params.find? (fun q2 => q2.1 = op.1) = some pr2 ∧
            pr2.2 ≠ WorhpInterface.WorhpParamType.wother :=
          ⟨(pname, WorhpInterface.WorhpParamType.wint), hfind, fun h => nomatch h⟩
        exact (and_iff_right hP).symm
      case wother =>
        have hstep : WorhpInterface.sortLoop params (op :: rest) acc
            = Except.error
                ("Cannot handle WORHP option \"" ++ op.1 ++ "\": Unknown type") := by
          simp [WorhpInterface.sortLoop, WorhpInterface.sortStep, hfind]
        rw [hstep, List.forall_mem_cons]
        constructor
        · rintro ⟨v, hv⟩
          cases hv
        · rintro ⟨⟨pr2, hpr2, hne⟩, _⟩
          rw [hfind] at hpr2
          cases hpr2
          exact absurd rfl hne

/-- C9: initialization fails with a descriptive error for unrecognized
option keys and never silently coerces them: the `SymbolicQr::init` loop
succeeds iff the removed `compiler` key is absent, it accepts the `codegen`
boolean key, and the `WorhpInterface::init` loop succeeds iff every key of
the `worhp` sub-dictionary names a WORHP parameter whose type is handled. -/
theorem init_rejects_unknown_options :
    (∀ opts : List (String × Bool),
      (∃ v, SymbolicQr.init opts = Except.ok v) ↔
        "compiler" ∉ opts.map Prod.fst) ∧
    (∀ b : Bool, SymbolicQr.init [("codegen", b)] = Except.ok b) ∧
    (∀ (params : List (String × WorhpInterface.WorhpParamType))
      (opts : List (String × ℚ)),
      (∃ v, WorhpInterface.sortOpts params opts = Except.ok v) ↔
      ∀ op ∈ opts, ∃ pr, params.find? (fun q2 => q2.1 = op.1) = some pr ∧
        pr.2 ≠ WorhpInterface.WorhpParamType.wother) := by
  refine ⟨?_, ?_, ?_⟩
  · intro opts
    exact symbolicQr_initLoop_ok_iff opts false
  · intro b
    rfl
  · intro params opts
    exact worhp_sortLoop_ok_iff params opts ⟨[], [], []⟩

/-- Witness for C9 at concrete dictionaries: `codegen` accepted, `compiler`
rejected, a known WORHP integer option accepted, an unknown one rejected. -/
theorem init_rejects_unknown_options_witness :
    (∃ v, SymbolicQr.init [("codegen", true)] = Except.ok v) ∧
    SymbolicQr.init [("compiler", true)] =
      Except.error "Option \"compiler\" has been removed" ∧
    SymbolicQr.init [("codegen", false)] = Except.ok false ∧
    (∃ v, WorhpInterface.sortOpts
      [("MaxIter", WorhpInterface.WorhpParamType.wint)] [("MaxIter", 3)] = Except.ok v) ∧
    WorhpInterface.sortOpts [("MaxIter", WorhpInterface.WorhpParamType.wint)]
      [("NoSuchOption", 3)] = Except.error "No such Worhp option: NoSuchOption" :=
  ⟨(init_rejects_unknown_options.1 [("codegen", true)]).mpr (by simp),
   rfl,
   init_rejects_unknown_options.2.1 false,
   (init_rejects_unknown_options.2.2 [("MaxIter", WorhpInterface.WorhpParamType.wint)]
     [("MaxIter", 3)]).mpr (by
       intro op hop
       rcases List.mem_singleton.mp hop with rfl
       exact ⟨("MaxIter", WorhpInterface.WorhpParamType.wint), rfl, by decide⟩),
   rfl⟩

/-- Indices at or past `nrhs * nrow` are never written by the solve loop. -/
theorem solveLoop_frame (solv : (Nat → ℚ) → Nat → ℚ) (nrow : Nat) :
    ∀ (nrhs : Nat) (x : Nat → ℚ) (idx : Nat), nrhs * nrow ≤ idx →
      SymbolicQr.solveLoop solv nrow nrhs x idx = x idx := by
  intro nrhs
  induction nrhs with
  | zero => intro x idx _; rfl
  | succ n ih =>
    intro x idx h
    have hstep : SymbolicQr.solveLoop solv nrow (n + 1) x
        = SymbolicQr.writeSeg (SymbolicQr.solveLoop solv nrow n x) (n * nrow) nrow
            (solv (SymbolicQr.readSeg (SymbolicQr.solveLoop solv nrow n x) (n * nrow))) := by
      unfold SymbolicQr.solveLoop
      rw [List.range_succ, List.foldl_append, List.foldl_cons, List.foldl_nil]
    have hmul : (n + 1) * nrow = n * nrow + nrow := by ring
    rw [hmul] at h
    have hout : ¬(n * nrow ≤ idx ∧ idx < n * nrow + nrow) := by
      rintro ⟨_, h2⟩
      exact absurd h2 (not_lt.mpr h)
    rw [hstep, SymbolicQr.writeSeg, if_neg hout]
    exact ih x idx (le_trans (Nat.le_add_right _ _) h)

/-- The solve loop leaves segment `i` holding `solv` applied to the original
content of segment `i`. -/
theorem solveLoop_segment (solv : (Nat → ℚ) → Nat → ℚ) (nrow : Nat)
    (hloc : ∀ u v : Nat → ℚ, (∀ j, j < nrow → u j = v j) →
      ∀ j, j < nrow → solv u j = solv v j) :
    ∀ (nrhs : Nat) (x : Nat → ℚ) (i : Nat), i < nrhs → ∀ j, j < nrow →
      SymbolicQr.solveLoop solv nrow nrhs x (i * nrow + j)
        = solv (SymbolicQr.readSeg x (i * nrow)) j := by
  intro nrhs
  induction nrhs with
  | zero => intro x i hi; omega
  | succ n ih =>
    intro x i hi j hj
    have hstep : SymbolicQr.solveLoop solv nrow (n + 1) x
        = SymbolicQr.writeSeg (SymbolicQr.solveLoop solv nrow n x) (n * nrow) nrow
            (solv (SymbolicQr.readSeg (SymbolicQr.solveLoop solv nrow n x) (n * nrow))) := by
      unfold SymbolicQr.solveLoop
      rw [List.range_succ, List.foldl_append, List.foldl_cons, List.foldl_nil]
    rw [hstep, SymbolicQr.writeSeg]
    rcases Nat.lt_or_ge i n with hin | hin
    · have hlt : i * nrow + j < n * nrow := by
        have h1 : i * nrow + j < (i + 1) * nrow := by
          have : (i + 1) * nrow = i * nrow + nrow := by ring
          omega
        exact lt_of_lt_of_le h1 (Nat.mul_le_mul_right nrow hin)
      have hout : ¬(n * nrow ≤ i * nrow + j ∧ i * nrow + j < n * nrow + nrow) := by
        rintro ⟨h1, _⟩
        exact absurd hlt (not_lt.mpr h1)
      rw [if_neg hout]
      exact ih x i hin j hj
    · have hie : i = n := by omega
      subst hie
      have hin2 : i * nrow ≤ i * nrow + j ∧ i * nrow + j < i * nrow + nrow :=
        ⟨Nat.le_add_right _ _, by omega⟩
      rw [if_pos hin2, Nat.add_sub_cancel_left]
      refine hloc _ _ ?_ j hj
      intro j2 hj2
      exact solveLoop_frame solv nrow i x (i * nrow + j2) (Nat.le_add_right _ _)

/-- C3: `SymbolicQr::solve` processes the `nrhs` contiguous right-hand-side
segments independently and in order: segment `i` of the caller buffer is
overwritten with the selected solve Function (`solveT` when transposed,
`solve` otherwise, closed over the stored `Q` and `R` buffers) applied to a
copy of the original segment `i`, so the solution written for right-hand
side `i` depends on no other right-hand side. -/
theorem symbolicQr_solve_segments (solveF solveT : (Nat → ℚ) → Nat → ℚ) (tr : Bool)
    (nrow nrhs : Nat) (x : Nat → ℚ)
    (hloc : ∀ u v : Nat → ℚ, (∀ j, j < nrow → u j = v j) → ∀ j, j < nrow →
      (if tr then solveT else solveF) u j = (if tr then solveT else solveF) v j) :
    ∀ i, i < nrhs → ∀ j, j < nrow →
      SymbolicQr.solveCall solveF solveT tr nrow nrhs x (i * nrow + j)
        = (if tr then solveT else solveF) (SymbolicQr.readSeg x (i * nrow)) j := by
  intro i hi j hj
  exact solveLoop_segment (if tr then solveT else solveF) nrow hloc nrhs x i hi j hj

/-- Witness for C3: two one-entry right-hand sides with a concrete solve
Function; segment 1 of the result is the Function applied to segment 1 of
the input. -/
theorem symbolicQr_solve_segments_witness :
    (∀ u v : Nat → ℚ, (∀ j, j < 1 → u j = v j) → ∀ j, j < 1 →
      demoSolve u j = demoSolve v j) ∧ 1 < 2 ∧ 0 < 1 ∧
    SymbolicQr.solveCall demoSolve demoSolve false 1 2 demoRhs (1 * 1 + 0)
      = demoSolve (SymbolicQr.readSeg demoRhs (1 * 1)) 0 :=
  ⟨fun u v h _ _ => by simp [demoSolve, h 0 (by omega)],
   by decide, by decide,
   symbolicQr_solve_segments demoSolve demoSolve false 1 2 demoRhs
     (fun u v h _ _ => by simp [demoSolve, h 0 (by omega)]) 1 (by decide) 0 (by decide)⟩

/-- When the `firstIteration` flag is already set, a loop pass only lets the
external `Worhp()` call update the status: the guarded callback block is
skipped whole. -/
theorem worhp_loopStep_flag_set (tbu : Int) (hasCb : Bool)
    (s : WorhpInterface.LoopState) (inp : WorhpInterface.LoopInput)
    (h : s.firstIteration = true) :
    WorhpInterface.loopStep tbu hasCb s inp =
      { s with status := if inp.callWorhp then inp.worhpStatus else s.status } := by
  obtain ⟨st, fi, cb⟩ := s
  dsimp only at h
  subst h
  cases hc : inp.callWorhp <;> cases hio : inp.iterOutput <;>
    simp [WorhpInterface.loopStep, hc, hio]

/-- C8 (code behaviour): in the loop as written, `firstIteration` is
initialized `true` and only ever assigned `true`, so the guard
`if (!firstIteration)` never opens: over every trace the user callback is
never evaluated, the flag stays `true`, the presence of a callback has no
effect at all on the run, and at the concrete failing input — one
`iterOutput` action with an installed callback returning 1 — the status is
left untouched instead of becoming `TerminatedByUser`. -/
theorem worhp_callback_dead_code (tbu : Int) (hasCb : Bool) (s0 : Int)
    (trace : List WorhpInterface.LoopInput) :
    (WorhpInterface.runLoop tbu hasCb s0 trace).cbCalls = 0 ∧
    (WorhpInterface.runLoop tbu hasCb s0 trace).firstIteration = true ∧
    WorhpInterface.runLoop tbu true s0 trace = WorhpInterface.runLoop tbu false s0 trace ∧
    WorhpInterface.runLoop tbu true 7 [⟨false, 0, true, 1⟩] =
      ⟨7, true, 0⟩ := by
  have key : ∀ (hb : Bool) (tr : List WorhpInterface.LoopInput)
      (s : WorhpInterface.LoopState), s.firstIteration = true →
      (tr.foldl (WorhpInterface.loopStep tbu hb) s).cbCalls = s.cbCalls ∧
      (tr.foldl (WorhpInterface.loopStep tbu hb) s).firstIteration = true ∧
      tr.foldl (WorhpInterface.loopStep tbu true) s
        = tr.foldl (WorhpInterface.loopStep tbu false) s := by
    intro hb tr
    induction tr with
    | nil => intro s h; exact ⟨rfl, h, rfl⟩
    | cons inp rest ih =>
      intro s h
      have hstep := worhp_loopStep_flag_set tbu hb s inp h
      have hT := worhp_loopStep_flag_set tbu true s inp h
      have hF := worhp_loopStep_flag_set tbu false s inp h
      have h2 : (WorhpInterface.loopStep tbu hb s inp).firstIteration = true := by
        rw [hstep]
        exact h
      have h3 : (WorhpInterface.loopStep tbu hb s inp).cbCalls = s.cbCalls := by
        rw [hstep]
      obtain ⟨c1, c2, _⟩ := ih (WorhpInterface.loopStep tbu hb s inp) h2
      have hflag : (WorhpInterface.loopStep tbu false s inp).firstIteration = true := by
        rw [hF]
        exact h
      have heq : WorhpInterface.loopStep tbu true s inp
          = WorhpInterface.loopStep tbu false s inp := by
        rw [hT, hF]
      obtain ⟨_, _, c3⟩ := ih (WorhpInterface.loopStep tbu false s inp) hflag
      refine ⟨by rw [List.foldl_cons, c1, h3], by rw [List.foldl_cons]; exact c2, ?_⟩
      rw [List.foldl_cons, List.foldl_cons, heq]
      exact c3
  obtain ⟨k1, k2, _⟩ := key hasCb trace ⟨s0, true, 0⟩ rfl
  exact ⟨k1, k2, (key hasCb trace ⟨s0, true, 0⟩ rfl).2.2, rfl⟩

/-- Cramer-rule solve: for invertible `R`, `R *ᵥ linSolve R y = y`. -/
theorem linSolve_mulVec {n : Nat} (R : Matrix (Fin n) (Fin n) ℚ) (hR : R.det ≠ 0)
    (y : Fin n → ℚ) : R *ᵥ SymbolicQr.linSolve R y = y := by
  unfold SymbolicQr.linSolve
  rw [Matrix.mulVec_smul, Matrix.mulVec_mulVec, Matrix.mul_adjugate,
    Matrix.smul_mulVec_assoc, Matrix.one_mulVec, smul_smul,
    inv_mul_cancel₀ hR, one_smul]

/-- Multiplying `A` against an inverse-column-permuted vector equals
multiplying the row/column-permuted matrix against the unpermuted vector,
read at the inverse-row-permuted index. -/
theorem permuteMat_mulVec {n : Nat} (A : Matrix (Fin n) (Fin n) ℚ)
    (rp cp : Equiv.Perm (Fin n)) (y : Fin n → ℚ) (r : Fin n) :
    (A *ᵥ SymbolicQr.permVec cp.symm y) r
      = (SymbolicQr.permuteMat A rp cp *ᵥ y) (rp.symm r) := by
  simp only [Matrix.mulVec, Matrix.dotProduct, SymbolicQr.permVec,
    SymbolicQr.permuteMat, Matrix.of_apply, Equiv.apply_symm_apply]
  exact (Fintype.sum_equiv cp (fun j => A r (cp j) * y j)
    (fun c => A r c * y (cp.symm c))
    (fun j => by simp)).symm

/-- The transposed counterpart of `permuteMat_mulVec`. -/
theorem permuteMat_transpose_mulVec {n : Nat} (A : Matrix (Fin n) (Fin n) ℚ)
    (rp cp : Equiv.Perm (Fin n)) (y : Fin n → ℚ) (c : Fin n) :
    (A.transpose *ᵥ SymbolicQr.permVec rp.symm y) c
      = ((SymbolicQr.permuteMat A rp cp).transpose *ᵥ y) (cp.symm c) := by
  simp only [Matrix.mulVec, Matrix.dotProduct, SymbolicQr.permVec,
    SymbolicQr.permuteMat, Matrix.transpose_apply, Matrix.of_apply,
    Equiv.apply_symm_apply]
  exact (Fintype.sum_equiv rp (fun i => A (rp i) c * y i)
    (fun r => A r c * y (rp.symm r))
    (fun i => by simp)).symm

/-- C1: the permute–solve–unpermute composition built in
`SymbolicQr::reset` is the algebraic identity for the original unpermuted
system: whenever the generated QR factorization satisfies
`Aperm = Q·R` with `Q` orthogonal and `R` invertible, the `QR_solv` graph
returns `x` with `A·x = b` and the `QR_solv_T` graph returns `x` with
`Aᵗ·x = b`. -/
theorem symbolicQr_solve_correct {n : Nat} (A Q R : Matrix (Fin n) (Fin n) ℚ)
    (rp cp : Equiv.Perm (Fin n)) (b : Fin n → ℚ)
    (hQR : SymbolicQr.permuteMat A rp cp = Q * R)
    (hQ : Q.transpose * Q = 1)
    (hR : R.det ≠ 0) :
    A *ᵥ SymbolicQr.solveGraph Q R rp cp b = b ∧
    A.transpose *ᵥ SymbolicQr.solveTGraph Q R rp cp b = b := by
  have hQQt : Q * Q.transpose = 1 := Matrix.mul_eq_one_comm.mp hQ
  constructor
  · have hperm : SymbolicQr.permuteMat A rp cp *ᵥ
        SymbolicQr.linSolve R (Q.transpose *ᵥ SymbolicQr.permVec rp b)
          = SymbolicQr.permVec rp b := by
      rw [hQR, ← Matrix.mulVec_mulVec, linSolve_mulVec R hR,
        Matrix.mulVec_mulVec, hQQt, Matrix.one_mulVec]
    funext r
    calc (A *ᵥ SymbolicQr.solveGraph Q R rp cp b) r
        = (SymbolicQr.permuteMat A rp cp *ᵥ
            SymbolicQr.linSolve R (Q.transpose *ᵥ SymbolicQr.permVec rp b)) (rp.symm r) :=
          permuteMat_mulVec A rp cp _ r
      _ = SymbolicQr.permVec rp b (rp.symm r) := by rw [hperm]
      _ = b r := by
          simp [SymbolicQr.permVec]
  · have hz := linSolve_mulVec R.transpose
      (by rw [Matrix.det_transpose]; exact hR) (SymbolicQr.permVec cp b)
    have hpermT : (SymbolicQr.permuteMat A rp cp).transpose *ᵥ
        (Q *ᵥ SymbolicQr.linSolve R.transpose (SymbolicQr.permVec cp b))
          = SymbolicQr.permVec cp b := by
      rw [hQR, Matrix.transpose_mul, ← Matrix.mulVec_mulVec,
        Matrix.mulVec_mulVec (SymbolicQr.linSolve R.transpose (SymbolicQr.permVec cp b))
          Q.transpose Q,
        hQ, Matrix.one_mulVec, hz]
    funext c
    calc (A.transpose *ᵥ SymbolicQr.solveTGraph Q R rp cp b) c
        = ((SymbolicQr.permuteMat A rp cp).transpose *ᵥ
            (Q *ᵥ SymbolicQr.linSolve R.transpose (SymbolicQr.permVec cp b))) (cp.symm c) :=
          permuteMat_transpose_mulVec A rp cp _ c
      _ = SymbolicQr.permVec cp b (cp.symm c) := by rw [hpermT]
      _ = b c := by
          simp [SymbolicQr.permVec]

/-- Witness for C1 at the concrete 1×1 system `A = [2]`, `Q = [1]`,
`R = [2]`, identity permutations, `b = [4]`. -/
theorem symbolicQr_solve_correct_witness :
    SymbolicQr.permuteMat demoA 1 1 = demoQ * demoR ∧
    demoQ.transpose * demoQ = 1 ∧
    demoR.det ≠ 0 ∧
    (demoA *ᵥ SymbolicQr.solveGraph demoQ demoR 1 1 demoB = demoB ∧
     demoA.transpose *ᵥ SymbolicQr.solveTGraph demoQ demoR 1 1 demoB = demoB) :=
  ⟨by
      ext i j
      simp [SymbolicQr.permuteMat, demoA, demoQ, demoR, Matrix.mul_apply,
        Fin.sum_univ_one],
   by
      ext i j
      fin_cases i
      fin_cases j
      simp [demoQ, Matrix.mul_apply, Fin.sum_univ_one, Matrix.one_apply],
   by
      rw [Matrix.det_fin_one]
      simp [demoR],
   symbolicQr_solve_correct demoA demoQ demoR 1 1 demoB
     (by
       ext i j
       simp [SymbolicQr.permuteMat, demoA, demoQ, demoR, Matrix.mul_apply,
         Fin.sum_univ_one])
     (by
       ext i j
       fin_cases i
       fin_cases j
       simp [demoQ, Matrix.mul_apply, Fin.sum_univ_one, Matrix.one_apply])
     (by
       rw [Matrix.det_fin_one]
       simp [demoR])⟩

/-- Witness for C6 at `x = [1, 2]`, `n = 3`. -/
theorem horzRepmat_repsum_roundtrip_witness :
    1 ≤ 3 ∧
      HorzRepsum.evalGen 3 2 (HorzRepmat.evalGen [(1 : ℚ), 2] 3) =
        [(1 : ℚ), 2].map (fun v => (3 : ℚ) * v) :=
  ⟨by decide, horzRepmat_repsum_roundtrip [1, 2] 3 (by decide)⟩

end Casadi
